import Mathlib

/-!
Shallow embedding of the habit-tracker analytics core
(src/analytics.py, src/habit_controller.py) and proofs of the
specification's claims about it.

Calendar dates are modelled as integers counting days from an epoch
(1970-01-01); a completion instant is a date plus a time-of-day tag.
`datetime.date.today()` becomes an explicit `today : Int` parameter.
-/

namespace HabitApp

/-- A calendar date: the number of days since 1970-01-01 (may be negative). -/
abbrev Date := Int

/-- A completion instant (Python `datetime.datetime`): a calendar date plus a
time-of-day component.  Two instants on the same day with different times are
distinct instants but share a date. -/
structure Instant where
  day : Int
  tod : Nat
deriving DecidableEq, Repr

/-- `d.date()` in Python: the calendar date of an instant. -/
def Instant.date (i : Instant) : Date := i.day

/-- A habit record (src/habit.py): name, free-text description, and a
schedule string, `"daily"` or `"weekly"` for records the constructor accepts. -/
structure Habit where
  name : String
  description : String
  schedule : String
deriving DecidableEq, Repr

/- ### The completion normalizer (analytics.py lines 16–25 and 110–116)

Python extracts `d.date()` for each instant, removes duplicates with
`list(set(...))`, and sorts.  The intermediate set ordering is irrelevant
because a sort follows; we model the pipeline as `dedup` followed by an
insertion sort.  `list.sort(reverse=True)` on distinct keys produces exactly
the reverse of the ascending sort. -/

/-- Insert an integer into an ascending-sorted list (model of `list.sort`). -/
def insertAsc (x : Int) : List Int → List Int
  | [] => [x]
  | y :: ys => if x ≤ y then x :: y :: ys else y :: insertAsc x ys

/-- Ascending insertion sort on integers. -/
def sortAsc : List Int → List Int
  | [] => []
  | x :: xs => insertAsc x (sortAsc xs)

/-- Lines 110–116: dates extracted, deduplicated, sorted oldest to newest. -/
def normalizeAsc (instants : List Instant) : List Int :=
  sortAsc ((instants.map Instant.date).dedup)

/-- Lines 16–25: dates extracted, deduplicated, sorted newest to oldest
(`unique_dates.sort(reverse=True)`). -/
def normalizeDesc (instants : List Instant) : List Int :=
  (normalizeAsc instants).reverse

/- ### Week bucketing (`date.strftime("%Y-%W")`)

`%W` is the week of the year with Monday as the first day of the week; days
before the first Monday of the year fall in week 0.  The `"%Y-%W"` strings
(4-digit year, 2-digit zero-padded week) compare lexicographically exactly as
the `(year, week)` integer pairs compare lexicographically, so buckets are
modelled as pairs.  The calendar arithmetic below is the standard proleptic
Gregorian conversion between day numbers and civil dates. -/

/-- Convert a day number (days since 1970-01-01) to a civil date
`(year, month, day)` in the proleptic Gregorian calendar. -/
def civilFromDays (z : Int) : Int × Int × Int :=
  let z' := z + 719468
  let era := z'.fdiv 146097
  let doe := z' - era * 146097
  let yoe := (doe - doe.ediv 1460 + doe.ediv 36524 - doe.ediv 146096).ediv 365
  let y := yoe + era * 400
  let doy := doe - (365 * yoe + yoe.ediv 4 - yoe.ediv 100)
  let mp := (5 * doy + 2).ediv 153
  let d := doy - (153 * mp + 2).ediv 5 + 1
  let m := mp + (if mp < 10 then 3 else -9)
  (y + (if m ≤ 2 then 1 else 0), m, d)

/-- Convert a civil date to a day number (days since 1970-01-01). -/
def daysFromCivil (y m d : Int) : Int :=
  let y' := y - (if m ≤ 2 then 1 else 0)
  let era := y'.fdiv 400
  let yoe := y' - era * 400
  let doy := (153 * (m + (if 2 < m then -3 else 9)) + 2).ediv 5 + d - 1
  let doe := yoe * 365 + yoe.ediv 4 - yoe.ediv 100 + doy
  era * 146097 + doe - 719468

/-- Day of the year, 1-based (January 1st is day 1). -/
def dayOfYear (z : Int) : Int :=
  z - daysFromCivil (civilFromDays z).1 1 1 + 1

/-- Monday-based weekday index (Monday = 0); 1970-01-01 was a Thursday. -/
def weekdayMon (z : Int) : Int := (z + 3).emod 7

/-- The `(year, week)` bucket produced by `strftime("%Y-%W")`: week number
with Monday as first weekday, days before the year's first Monday in week 0. -/
def yearWeek (z : Int) : Int × Int :=
  ((civilFromDays z).1, (dayOfYear z + 6 - weekdayMon z).ediv 7)

/-- Lexicographic comparison of `(year, week)` buckets — the order in which
the `"%Y-%W"` strings compare. -/
def pairLe (a b : Int × Int) : Bool := a.1 < b.1 || (a.1 == b.1 && a.2 ≤ b.2)

/-- Insert a bucket into an ascending-sorted bucket list. -/
def insertPairAsc (x : Int × Int) : List (Int × Int) → List (Int × Int)
  | [] => [x]
  | y :: ys => if pairLe x y then x :: y :: ys else y :: insertPairAsc x ys

/-- Ascending insertion sort on buckets (model of `week_list.sort()`). -/
def sortPairsAsc : List (Int × Int) → List (Int × Int)
  | [] => []
  | x :: xs => insertPairAsc x (sortPairsAsc xs)

/-- `week_list.sort(reverse=True)` on the distinct bucket keys. -/
def sortPairsDesc (l : List (Int × Int)) : List (Int × Int) :=
  (sortPairsAsc l).reverse

/-- The deduplicated, descending-sorted week buckets of a date list
(analytics.py lines 62–72: dict-keyed grouping then reverse sort). -/
def weekBucketsDesc (dates : List Int) : List (Int × Int) :=
  sortPairsDesc ((dates.map yearWeek).dedup)

/-- The deduplicated, ascending-sorted week buckets (lines 139–147). -/
def weekBucketsAsc (dates : List Int) : List (Int × Int) :=
  sortPairsAsc ((dates.map yearWeek).dedup)

/- ### Streak counting loops -/

/-- The `for … break` loops of lines 40–50 and 76–91: start at 1 and walk
adjacent pairs of the list, adding 1 while `p` holds, stopping at the first
failure. -/
def countConsecBy (p : α → α → Bool) : List α → Nat
  | x :: y :: rest => if p x y then countConsecBy p (y :: rest) + 1 else 1
  | _ => 1

/-- src/analytics.py lines 7–93, `calculate_streak(dates, schedule)`.
`today` stands for `datetime.date.today()`.  Year equality in the weekly
branch compares the `%Y` strings, which for the 4-digit years of interest
coincides with integer equality. -/
def calculate_streak (dates : List Instant) (schedule : String) (today : Int) :
    Nat :=
  if dates = [] then 0
  else
    let unique_dates := normalizeDesc dates
    if schedule = "daily" then
      let yesterday := today - 1
      match unique_dates with
      | [] => 0
      | d0 :: _ =>
        if d0 < yesterday then 0
        else countConsecBy (fun a b => a - b == 1) unique_dates
    else
      match unique_dates with
      | [] => 0
      | d0 :: _ =>
        if 7 < today - d0 then 0
        else
          countConsecBy (fun a b => a.1 == b.1 && a.2 - b.2 == 1)
            (weekBucketsDesc unique_dates)

/-- src/analytics.py lines 95–99. -/
def get_current_streak_for_habit (habit : Habit) (completions : List Instant)
    (today : Int) : Nat :=
  calculate_streak completions habit.schedule today

/-- The daily longest-streak loop of lines 122–135: state is the previous
date, the running run length and the maximum so far (`longest` is only
replaced when the running count exceeds it, i.e. it becomes their max). -/
def dailyScan (prev : Int) (cur longest : Nat) : List Int → Int × Nat × Nat
  | [] => (prev, cur, longest)
  | x :: rest =>
    if x - prev = 1 then dailyScan x (cur + 1) (max longest (cur + 1)) rest
    else dailyScan x 1 longest rest

/-- The weekly longest-streak loop of lines 152–167, on week buckets. -/
def weeklyScan (prev : Int × Int) (cur longest : Nat) :
    List (Int × Int) → (Int × Int) × Nat × Nat
  | [] => (prev, cur, longest)
  | x :: rest =>
    if x.1 = prev.1 ∧ x.2 - prev.2 = 1 then
      weeklyScan x (cur + 1) (max longest (cur + 1)) rest
    else weeklyScan x 1 longest rest

/-- src/analytics.py lines 101–169, `get_longest_streak_for_habit`. -/
def get_longest_streak_for_habit (habit : Habit) (completions : List Instant) :
    Nat :=
  if completions = [] then 0
  else
    let unique_dates := normalizeAsc completions
    if unique_dates.length = 1 then 1
    else if habit.schedule = "daily" then
      match unique_dates with
      | [] => 0
      | x :: rest => (dailyScan x 1 1 rest).2.2
    else
      let week_list := weekBucketsAsc unique_dates
      if week_list.length = 1 then 1
      else
        match week_list with
        | [] => 0
        | w :: rest => (weeklyScan w 1 1 rest).2.2

/- ### Filtering by periodicity (analytics.py lines 172–182)

The Python function never raises: on an invalid schedule it prints a warning
and returns the empty list.  The printed warning is modelled as an observable
field of the result. -/

/-- Result of `get_habits_by_periodicity`: the returned list plus the warning
printed to stdout, if any. -/
structure FilterResult where
  warning : Option String
  result : List Habit
deriving DecidableEq, Repr

/-- src/analytics.py lines 172–182. -/
def get_habits_by_periodicity (habits : List Habit) (schedule : String) :
    FilterResult :=
  if schedule ≠ "daily" ∧ schedule ≠ "weekly" then
    { warning := some ("Warning: Invalid schedule " ++ schedule), result := [] }
  else
    { warning := none,
      result := habits.filter (fun h => h.schedule == schedule) }

/- ### Adherence analyzer (analytics.py lines 184–227) -/

/-- `all_completions.get(habit.name, [])`: dictionary lookup defaulting to the
empty list; the dictionary is modelled as an association list with distinct
keys. -/
def lookupComps (m : List (String × List Instant)) (name : String) :
    List Instant :=
  match m.find? (fun p => p.1 == name) with
  | some p => p.2
  | none => []

/-- Lines 190–191: `period_end` defaults to today. -/
def resolvePeriodEnd (pe : Option Int) (today : Int) : Int := pe.getD today

/-- Lines 192–193: `period_start` defaults to `period_end` minus 30 days. -/
def resolvePeriodStart (ps : Option Int) (pe : Int) : Int := ps.getD (pe - 30)

/-- Lines 202–207: completions whose date lies in the inclusive range. -/
def completionsInRange (comps : List Instant) (ps pe : Int) : Nat :=
  (comps.filter (fun c => ps ≤ c.date && c.date ≤ pe)).length

/-- Line 210: `(period_end - period_start).days + 1`. -/
def daysInPeriod (ps pe : Int) : Int := pe - ps + 1

/-- Lines 212–216: expected completions; `//` is Python floor division. -/
def expectedFor (schedule : String) (ps pe : Int) : Int :=
  if schedule = "daily" then daysInPeriod ps pe
  else (daysInPeriod ps pe).fdiv 7 + 1

/-- Lines 218–221: missed completions, clamped at zero. -/
def missedFor (habit : Habit) (comps : List Instant) (ps pe : Int) : Int :=
  let missed := expectedFor habit.schedule ps pe - completionsInRange comps ps pe
  if missed < 0 then 0 else missed

/-- Stable insertion into a list sorted descending by the missed count:
a new element passes over entries with a greater-or-equal key, so among
equal keys earlier input stays first.  This is the behaviour of Python's
stable `list.sort(key=..., reverse=True)`. -/
def insertMissed (x : String × Int) :
    List (String × Int) → List (String × Int)
  | [] => [x]
  | y :: ys => if y.2 ≤ x.2 then x :: y :: ys else y :: insertMissed x ys

/-- Stable descending sort by missed count (line 226). -/
def sortMissedDesc : List (String × Int) → List (String × Int)
  | [] => []
  | x :: xs => insertMissed x (sortMissedDesc xs)

/-- src/analytics.py lines 184–227, `find_struggling_habits`.  `today`
stands for `datetime.date.today()`. -/
def find_struggling_habits (habits : List Habit)
    (all_completions : List (String × List Instant))
    (period_start period_end : Option Int) (today : Int) :
    List (String × Int) :=
  if habits.length = 0 then []
  else
    let pe := resolvePeriodEnd period_end today
    let ps := resolvePeriodStart period_start pe
    sortMissedDesc
      (habits.map fun h =>
        (h.name, missedFor h (lookupComps all_completions h.name) ps pe))

/- ### Aggregate reporter (habit_controller.py lines 123–173)

The controller fetches each habit's completions from the data manager and
reduces over the per-habit longest streaks; the manager is modelled as a
function from habit names to completion lists. -/

/-- Lines 139–144: the `(name, streak, schedule)` triple per habit. -/
def habitStreaks (habits : List Habit) (comps : String → List Instant) :
    List (String × Nat × String) :=
  habits.map fun h =>
    (h.name, get_longest_streak_for_habit h (comps h.name), h.schedule)

/-- Lines 150–155: running maximum over the streak values, starting at 0. -/
def maxStreakOf (hs : List (String × Nat × String)) : Nat :=
  hs.foldl (fun m t => if t.2.1 > m then t.2.1 else m) 0

/-- Lines 157–162: all habits whose streak equals the maximum. -/
def bestHabits (habits : List Habit) (comps : String → List Instant) :
    List (String × Nat × String) :=
  (habitStreaks habits comps).filter
    (fun t => t.2.1 == maxStreakOf (habitStreaks habits comps))

/-- src/habit_controller.py lines 123–173, `view_longest_streak_all`. -/
def view_longest_streak_all (habits : List Habit)
    (comps : String → List Instant) : String :=
  if habits = [] then "No habits defined to calculate streaks."
  else
    let habit_streaks := habitStreaks habits comps
    if habit_streaks = [] then "No streaks to report."
    else
      let max_streak := maxStreakOf habit_streaks
      let best_habits := bestHabits habits comps
      match best_habits with
      | [(name, streak, schedule)] =>
        "Longest streak: " ++ name ++ " (" ++ schedule ++ ") with " ++
          toString streak ++ " consecutive completions"
      | _ =>
        "Longest streak: " ++ toString max_streak ++
          " completions, shared by: " ++
          String.intercalate ", "
            (best_habits.map fun t => t.1 ++ " (" ++ t.2.2 ++ ")")

/- ### Lemmas about the normalizer -/

theorem insertAsc_perm (x : Int) (l : List Int) :
    List.Perm (insertAsc x l) (x :: l) := by
  induction l with
  | nil => simp [insertAsc]
  | cons y ys ih =>
    by_cases h : x ≤ y
    · simp [insertAsc, h]
    · simp only [insertAsc, if_neg h]
      exact (List.Perm.cons y ih).trans (List.Perm.swap x y ys)

theorem sortAsc_perm (l : List Int) : List.Perm (sortAsc l) l := by
  induction l with
  | nil => simp [sortAsc]
  | cons x xs ih =>
    exact (insertAsc_perm x (sortAsc xs)).trans (List.Perm.cons x ih)

theorem mem_insertAsc {a x : Int} {l : List Int} :
    a ∈ insertAsc x l ↔ a = x ∨ a ∈ l := by
  rw [(insertAsc_perm x l).mem_iff, List.mem_cons]

theorem insertAsc_sorted {x : Int} {l : List Int}
    (h : List.Sorted (· ≤ ·) l) : List.Sorted (· ≤ ·) (insertAsc x l) := by
  induction l with
  | nil => simp [insertAsc]
  | cons y ys ih =>
    rw [List.sorted_cons] at h
    by_cases hxy : x ≤ y
    · rw [insertAsc, if_pos hxy, List.sorted_cons]
      refine ⟨fun b hb => ?_, List.sorted_cons.mpr h⟩
      rcases List.mem_cons.mp hb with rfl | hb
      · exact hxy
      · exact le_trans hxy (h.1 b hb)
    · rw [insertAsc, if_neg hxy, List.sorted_cons]
      refine ⟨fun b hb => ?_, ih h.2⟩
      rcases mem_insertAsc.mp hb with rfl | hb
      · omega
      · exact h.1 b hb

theorem sortAsc_sorted (l : List Int) : List.Sorted (· ≤ ·) (sortAsc l) := by
  induction l with
  | nil => simp [sortAsc]
  | cons x xs ih => exact insertAsc_sorted ih

theorem normalizeAsc_sorted (instants : List Instant) :
    List.Sorted (· ≤ ·) (normalizeAsc instants) :=
  sortAsc_sorted _

theorem normalizeAsc_nodup (instants : List Instant) :
    (normalizeAsc instants).Nodup :=
  ((sortAsc_perm _).nodup_iff).mpr (List.nodup_dedup _)

theorem mem_normalizeAsc {a : Int} {instants : List Instant} :
    a ∈ normalizeAsc instants ↔ a ∈ instants.map Instant.date := by
  rw [normalizeAsc, (sortAsc_perm _).mem_iff, List.mem_dedup]

/-- Two completion lists whose dates form the same set normalize to the same
sorted list. -/
theorem normalizeAsc_eq_of_mem_iff {l₁ l₂ : List Instant}
    (h : ∀ a, a ∈ l₁.map Instant.date ↔ a ∈ l₂.map Instant.date) :
    normalizeAsc l₁ = normalizeAsc l₂ := by
  refine List.eq_of_perm_of_sorted ?_ (normalizeAsc_sorted l₁)
    (normalizeAsc_sorted l₂)
  refine (List.perm_ext_iff_of_nodup (normalizeAsc_nodup l₁)
    (normalizeAsc_nodup l₂)).mpr fun a => ?_
  rw [mem_normalizeAsc, mem_normalizeAsc]
  exact h a

theorem normalizeAsc_ne_nil {instants : List Instant} (h : instants ≠ []) :
    normalizeAsc instants ≠ [] := by
  intro hn
  rcases List.exists_mem_of_ne_nil instants h with ⟨i, hi⟩
  have : i.date ∈ instants.map Instant.date := List.mem_map_of_mem _ hi
  rw [← mem_normalizeAsc, hn] at this
  exact absurd this (List.not_mem_nil _)

theorem normalizeDesc_sorted (instants : List Instant) :
    List.Sorted (· ≥ ·) (normalizeDesc instants) := by
  rw [normalizeDesc, List.Sorted, List.pairwise_reverse]
  exact normalizeAsc_sorted instants

theorem mem_normalizeDesc {a : Int} {instants : List Instant} :
    a ∈ normalizeDesc instants ↔ a ∈ instants.map Instant.date := by
  rw [normalizeDesc, List.mem_reverse, mem_normalizeAsc]

/- ### The counting loop as a takeWhile over adjacent pairs -/

/-- The `for … break` counting loop equals one plus the number of adjacent
pairs satisfying the step predicate before the first failure. -/
theorem countConsecBy_eq_takeWhile {α : Type} (p : α → α → Bool)
    (x : α) (rest : List α) :
    countConsecBy p (x :: rest) =
      1 + (((x :: rest).zip rest).takeWhile fun q => p q.1 q.2).length := by
  induction rest generalizing x with
  | nil => simp [countConsecBy]
  | cons y ys ih =>
    by_cases h : p x y
    · rw [countConsecBy, if_pos h]
      rw [List.zip_cons_cons, List.takeWhile_cons]
      simp only [h, if_true, List.length_cons, ih y]
      omega
    · rw [countConsecBy, if_neg h]
      rw [List.zip_cons_cons, List.takeWhile_cons]
      simp [h]

theorem one_le_countConsecBy {α : Type} (p : α → α → Bool) (l : List α) :
    1 ≤ countConsecBy p l := by
  match l with
  | [] => simp [countConsecBy]
  | [x] => simp [countConsecBy]
  | x :: y :: rest =>
    rw [countConsecBy]
    by_cases h : p x y <;> simp [h]

/- ### Claim C1 -/

/-- C1: the spec says `get_habits_by_periodicity` fails with an
`InvalidCadence` error for a cadence outside {daily, weekly}, and the
repository's own test `test_get_habits_by_invalid_periodicity` expects a
`ValueError`; the code instead returns normally with an empty list after
printing a warning.  This theorem evaluates the code at the failing input. -/
theorem c1_invalid_cadence_returns_empty_not_error :
    get_habits_by_periodicity [⟨"Test", "", "daily"⟩] "monthly" =
      { warning := some "Warning: Invalid schedule monthly", result := [] } := by
  rfl

/- ### Claim C2 -/

/-- C2 counterexample: with both window bounds unspecified, a daily habit
with no completions is reported as missing 31 completions, so the default
window is 31 inclusive days, not "exactly the 30 days ending today". -/
theorem c2_default_window_counterexample :
    find_struggling_habits [⟨"H", "", "daily"⟩] [] none none 20000 =
      [("H", 31)] ∧ (31 : Int) ≠ 30 := by
  exact ⟨rfl, by decide⟩

/-- C2 (amended): when unspecified, the window defaults to the 31 days from
today − 30 to today, inclusive on both ends, and the width used for expected
counts is windowEnd − windowStart + 1 days. -/
theorem c2_default_window_is_today_minus_30_to_today
    (habits : List Habit) (m : List (String × List Instant)) (today : Int) :
    resolvePeriodEnd none today = today ∧
    resolvePeriodStart none (resolvePeriodEnd none today) = today - 30 ∧
    daysInPeriod (today - 30) today = 31 ∧
    find_struggling_habits habits m none none today =
      find_struggling_habits habits m (some (today - 30)) (some today) today := by
  refine ⟨rfl, rfl, by simp [daysInPeriod], rfl⟩

/- ### Claim C3 -/

/-- C3: for daily cadence, the current streak is 0 when the most recent
distinct completion date `m` is strictly older than yesterday, and otherwise
is 1 plus the number of consecutive newest-to-oldest date pairs differing by
exactly one day before the first gap. -/
theorem c3_daily_current_streak (dates : List Instant) (today m : Int)
    (rest : List Int) (hd : normalizeDesc dates = m :: rest) :
    (m ∈ dates.map Instant.date ∧ ∀ x ∈ dates.map Instant.date, x ≤ m) ∧
    calculate_streak dates "daily" today =
      (if m < today - 1 then 0
       else 1 + (((m :: rest).zip rest).takeWhile fun q =>
          q.1 - q.2 == 1).length) := by
  have hne : dates ≠ [] := by
    intro h0
    rw [h0] at hd
    simp [normalizeDesc, normalizeAsc, sortAsc] at hd
  refine ⟨⟨?_, ?_⟩, ?_⟩
  · exact mem_normalizeDesc.mp (by rw [hd]; exact List.mem_cons_self m rest)
  · intro x hx
    have hx' : x ∈ normalizeDesc dates := mem_normalizeDesc.mpr hx
    have hs := normalizeDesc_sorted dates
    rw [hd] at hx' hs
    rw [List.sorted_cons] at hs
    rcases List.mem_cons.mp hx' with rfl | hx''
    · exact le_refl x
    · exact hs.1 x hx''
  · unfold calculate_streak
    rw [if_neg hne, if_pos rfl, hd]
    show (if m < today - 1 then 0
        else countConsecBy (fun a b => a - b == 1) (m :: rest)) = _
    by_cases hm : m < today - 1
    · rw [if_pos hm, if_pos hm]
    · rw [if_neg hm, if_neg hm, countConsecBy_eq_takeWhile]

/-- Witness for C3 at a concrete input: completions on days 5, 4 and 2 with
today = 5 (streak 2, most recent date 5). -/
theorem c3_daily_current_streak_witness :
    (((5 : Int) ∈ ([⟨5, 1⟩, ⟨4, 0⟩, ⟨2, 3⟩] : List Instant).map Instant.date ∧
      ∀ x ∈ ([⟨5, 1⟩, ⟨4, 0⟩, ⟨2, 3⟩] : List Instant).map Instant.date,
        x ≤ 5) ∧
    calculate_streak [⟨5, 1⟩, ⟨4, 0⟩, ⟨2, 3⟩] "daily" 5 =
      (if (5 : Int) < 5 - 1 then 0
       else 1 + ((([5, 4, 2] : List Int).zip [4, 2]).takeWhile fun q =>
          q.1 - q.2 == 1).length)) :=
  c3_daily_current_streak [⟨5, 1⟩, ⟨4, 0⟩, ⟨2, 3⟩] 5 5 [4, 2] (by decide)

/- ### Claim C4 -/

theorem insertPairAsc_perm (x : Int × Int) (l : List (Int × Int)) :
    List.Perm (insertPairAsc x l) (x :: l) := by
  induction l with
  | nil => simp [insertPairAsc]
  | cons y ys ih =>
    by_cases h : pairLe x y
    · simp [insertPairAsc, h]
    · simp only [insertPairAsc, if_neg h]
      exact (List.Perm.cons y ih).trans (List.Perm.swap x y ys)

theorem sortPairsAsc_perm (l : List (Int × Int)) :
    List.Perm (sortPairsAsc l) l := by
  induction l with
  | nil => simp [sortPairsAsc]
  | cons x xs ih =>
    exact (insertPairAsc_perm x (sortPairsAsc xs)).trans (List.Perm.cons x ih)

theorem weekBucketsDesc_ne_nil {dates : List Int} (h : dates ≠ []) :
    weekBucketsDesc dates ≠ [] := by
  rcases List.exists_mem_of_ne_nil dates h with ⟨d, hd⟩
  have h1 : yearWeek d ∈ (dates.map yearWeek).dedup :=
    List.mem_dedup.mpr (List.mem_map_of_mem _ hd)
  have h2 : yearWeek d ∈ weekBucketsDesc dates := by
    rw [weekBucketsDesc, sortPairsDesc, List.mem_reverse]
    exact (sortPairsAsc_perm _).mem_iff.mpr h1
  intro hn
  rw [hn] at h2
  exact absurd h2 (List.not_mem_nil _)

/-- `countConsecBy` as a takeWhile count, for any nonempty list. -/
theorem countConsecBy_eq_takeWhile_of_ne_nil {α : Type} (p : α → α → Bool)
    {l : List α} (h : l ≠ []) :
    countConsecBy p l =
      1 + ((l.zip l.tail).takeWhile fun q => p q.1 q.2).length := by
  obtain ⟨x, xs, rfl⟩ := List.exists_cons_of_ne_nil h
  simpa using countConsecBy_eq_takeWhile p x xs

/-- C4: for weekly cadence, the current streak is 0 when the most recent
completion date `m` is more than 7 days before today, and otherwise counts
consecutive (year, week) buckets from the newest downward, starting at 1 and
incrementing only while adjacent buckets share a year and their week numbers
differ by exactly 1, stopping at the first gap or year change. -/
theorem c4_weekly_current_streak (dates : List Instant) (today m : Int)
    (rest : List Int) (hd : normalizeDesc dates = m :: rest) :
    (m ∈ dates.map Instant.date ∧ ∀ x ∈ dates.map Instant.date, x ≤ m) ∧
    calculate_streak dates "weekly" today =
      (if 7 < today - m then 0
       else 1 + (((weekBucketsDesc (m :: rest)).zip
            (weekBucketsDesc (m :: rest)).tail).takeWhile fun q =>
          q.1.1 == q.2.1 && q.1.2 - q.2.2 == 1).length) := by
  have hne : dates ≠ [] := by
    intro h0
    rw [h0] at hd
    simp [normalizeDesc, normalizeAsc, sortAsc] at hd
  refine ⟨⟨?_, ?_⟩, ?_⟩
  · exact mem_normalizeDesc.mp (by rw [hd]; exact List.mem_cons_self m rest)
  · intro x hx
    have hx' : x ∈ normalizeDesc dates := mem_normalizeDesc.mpr hx
    have hs := normalizeDesc_sorted dates
    rw [hd] at hx' hs
    rw [List.sorted_cons] at hs
    rcases List.mem_cons.mp hx' with rfl | hx''
    · exact le_refl x
    · exact hs.1 x hx''
  · unfold calculate_streak
    rw [if_neg hne, if_neg (by decide : ¬("weekly" = "daily")), hd]
    show (if 7 < today - m then 0
        else countConsecBy (fun a b => a.1 == b.1 && a.2 - b.2 == 1)
          (weekBucketsDesc (m :: rest))) = _
    by_cases hm : 7 < today - m
    · rw [if_pos hm, if_pos hm]
    · rw [if_neg hm, if_neg hm,
        countConsecBy_eq_takeWhile_of_ne_nil _
          (weekBucketsDesc_ne_nil (List.cons_ne_nil m rest))]

/-- Witness for C4 at a concrete input: completions in three consecutive
weeks evaluated in the newest week (streak 3, most recent date 20373). -/
theorem c4_weekly_current_streak_witness :
    (((20373 : Int) ∈
        ([⟨20373, 0⟩, ⟨20366, 1⟩, ⟨20359, 2⟩] : List Instant).map
          Instant.date ∧
      ∀ x ∈ ([⟨20373, 0⟩, ⟨20366, 1⟩, ⟨20359, 2⟩] : List Instant).map
          Instant.date, x ≤ 20373) ∧
    calculate_streak [⟨20373, 0⟩, ⟨20366, 1⟩, ⟨20359, 2⟩] "weekly" 20373 =
      (if 7 < (20373 : Int) - 20373 then 0
       else 1 + (((weekBucketsDesc [20373, 20366, 20359]).zip
            (weekBucketsDesc [20373, 20366, 20359]).tail).takeWhile fun q =>
          q.1.1 == q.2.1 && q.1.2 - q.2.2 == 1).length)) :=
  c4_weekly_current_streak [⟨20373, 0⟩, ⟨20366, 1⟩, ⟨20359, 2⟩] 20373 20373
    [20366, 20359] (by decide)

/- ### Lemmas about the adherence sort -/

theorem insertMissed_perm (x : String × Int) (l : List (String × Int)) :
    List.Perm (insertMissed x l) (x :: l) := by
  induction l with
  | nil => simp [insertMissed]
  | cons y ys ih =>
    by_cases h : y.2 ≤ x.2
    · simp [insertMissed, h]
    · simp only [insertMissed, if_neg h]
      exact (List.Perm.cons y ih).trans (List.Perm.swap x y ys)

theorem sortMissedDesc_perm (l : List (String × Int)) :
    List.Perm (sortMissedDesc l) l := by
  induction l with
  | nil => simp [sortMissedDesc]
  | cons x xs ih =>
    exact (insertMissed_perm x (sortMissedDesc xs)).trans (List.Perm.cons x ih)

theorem mem_insertMissed {a x : String × Int} {l : List (String × Int)} :
    a ∈ insertMissed x l ↔ a = x ∨ a ∈ l := by
  rw [(insertMissed_perm x l).mem_iff, List.mem_cons]

theorem insertMissed_sorted {x : String × Int} {l : List (String × Int)}
    (h : List.Pairwise (fun a b => b.2 ≤ a.2) l) :
    List.Pairwise (fun a b => b.2 ≤ a.2) (insertMissed x l) := by
  induction l with
  | nil => simp [insertMissed]
  | cons y ys ih =>
    rw [List.pairwise_cons] at h
    by_cases hxy : y.2 ≤ x.2
    · rw [insertMissed, if_pos hxy, List.pairwise_cons]
      refine ⟨fun b hb => ?_, List.pairwise_cons.mpr h⟩
      rcases List.mem_cons.mp hb with rfl | hb
      · exact hxy
      · exact le_trans (h.1 b hb) hxy
    · rw [insertMissed, if_neg hxy, List.pairwise_cons]
      refine ⟨fun b hb => ?_, ih h.2⟩
      rcases mem_insertMissed.mp hb with rfl | hb
      · omega
      · exact h.1 b hb

theorem sortMissedDesc_sorted (l : List (String × Int)) :
    List.Pairwise (fun a b => b.2 ≤ a.2) (sortMissedDesc l) := by
  induction l with
  | nil => simp [sortMissedDesc]
  | cons x xs ih => exact insertMissed_sorted ih

/-- Inserting at its sorted position does not reorder entries with any given
missed count: the stability core of the sort. -/
theorem filter_insertMissed (x : String × Int) (l : List (String × Int))
    (k : Int) :
    (insertMissed x l).filter (fun p => p.2 == k) =
      ((x :: l).filter (fun p => p.2 == k)) := by
  induction l with
  | nil => rfl
  | cons y ys ih =>
    by_cases h : y.2 ≤ x.2
    · rw [insertMissed, if_pos h]
    · rw [insertMissed, if_neg h]
      push_neg at h
      by_cases hk : y.2 = k
      · have hxk : ¬(x.2 = k) := by omega
        simp only [List.filter_cons, beq_iff_eq, hk, hxk, if_true, if_false,
          ite_true, ite_false, decide_eq_true_eq]
        simp only [List.filter_cons, beq_iff_eq, hxk] at ih ⊢
        simp [hk, hxk, ih]
      · simp only [List.filter_cons, beq_iff_eq] at ih ⊢
        simp [hk, ih]

/-- The adherence sort is stable: entries with any given missed count keep
their input order. -/
theorem sortMissedDesc_filter_stable (l : List (String × Int)) (k : Int) :
    (sortMissedDesc l).filter (fun p => p.2 == k) =
      l.filter (fun p => p.2 == k) := by
  induction l with
  | nil => simp [sortMissedDesc]
  | cons x xs ih =>
    rw [sortMissedDesc, filter_insertMissed]
    simp only [List.filter_cons]
    rw [ih]

/- ### Claims C5, C6 and C10 -/

theorem missedFor_eq_max (hb : Habit) (comps : List Instant) (ps pe : Int) :
    missedFor hb comps ps pe =
      max 0 (expectedFor hb.schedule ps pe -
        (completionsInRange comps ps pe : Int)) := by
  unfold missedFor
  dsimp only
  split <;> omega

theorem missedFor_nonneg (hb : Habit) (comps : List Instant) (ps pe : Int) :
    0 ≤ missedFor hb comps ps pe := by
  unfold missedFor
  dsimp only
  split <;> omega

/-- C5: every entry of the adherence report equals
`max 0 (expected − actual)` for its habit, where `actual` counts
completions dated inside the inclusive window and `expected` is the window
width for daily cadence and `floor(daysInWindow / 7) + 1` for weekly cadence;
no entry is negative. -/
theorem c5_missed_is_clamped_shortfall (habits : List Habit)
    (m : List (String × List Instant)) (pstart pend : Option Int)
    (today : Int) :
    (∀ p ∈ find_struggling_habits habits m pstart pend today, 0 ≤ p.2) ∧
    (∀ hb ∈ habits,
      (hb.name,
        max 0 (expectedFor hb.schedule
            (resolvePeriodStart pstart (resolvePeriodEnd pend today))
            (resolvePeriodEnd pend today) -
          (completionsInRange (lookupComps m hb.name)
            (resolvePeriodStart pstart (resolvePeriodEnd pend today))
            (resolvePeriodEnd pend today) : Int))) ∈
        find_struggling_habits habits m pstart pend today) := by
  constructor
  · intro p hp
    unfold find_struggling_habits at hp
    by_cases h0 : habits.length = 0
    · rw [if_pos h0] at hp
      exact absurd hp (List.not_mem_nil p)
    · rw [if_neg h0] at hp
      have hp' := (sortMissedDesc_perm _).mem_iff.mp hp
      rw [List.mem_map] at hp'
      obtain ⟨hb, _, rfl⟩ := hp'
      exact missedFor_nonneg hb _ _ _
  · intro hb hmem
    have h0 : ¬(habits.length = 0) := by
      intro h
      rw [List.length_eq_zero] at h
      subst h
      exact absurd hmem (List.not_mem_nil hb)
    unfold find_struggling_habits
    rw [if_neg h0]
    refine (sortMissedDesc_perm _).mem_iff.mpr ?_
    rw [List.mem_map]
    exact ⟨hb, hmem, by rw [missedFor_eq_max]⟩

/-- Witness for C5 at a concrete input: one daily and one weekly habit over
the window [0, 9], with three completions recorded for the daily habit. -/
theorem c5_missed_is_clamped_shortfall_witness :
    (∀ p ∈ find_struggling_habits [⟨"D", "", "daily"⟩, ⟨"W", "", "weekly"⟩]
        [("D", [⟨0, 0⟩, ⟨1, 0⟩, ⟨2, 0⟩])] (some 0) (some 9) 9, 0 ≤ p.2) ∧
    (∀ hb ∈ [(⟨"D", "", "daily"⟩ : Habit), ⟨"W", "", "weekly"⟩],
      (hb.name,
        max 0 (expectedFor hb.schedule
            (resolvePeriodStart (some 0) (resolvePeriodEnd (some 9) 9))
            (resolvePeriodEnd (some 9) 9) -
          (completionsInRange
            (lookupComps [("D", [⟨0, 0⟩, ⟨1, 0⟩, ⟨2, 0⟩])] hb.name)
            (resolvePeriodStart (some 0) (resolvePeriodEnd (some 9) 9))
            (resolvePeriodEnd (some 9) 9) : Int))) ∈
        find_struggling_habits [⟨"D", "", "daily"⟩, ⟨"W", "", "weekly"⟩]
          [("D", [⟨0, 0⟩, ⟨1, 0⟩, ⟨2, 0⟩])] (some 0) (some 9) 9) :=
  c5_missed_is_clamped_shortfall [⟨"D", "", "daily"⟩, ⟨"W", "", "weekly"⟩]
    [("D", [⟨0, 0⟩, ⟨1, 0⟩, ⟨2, 0⟩])] (some 0) (some 9) 9

/-- C6: the adherence report contains exactly one `(name, missed)` pair per
input habit (zero-missed habits included), is sorted by missed count
descending, and keeps tied entries in encounter order. -/
theorem c6_report_complete_sorted_stable (habits : List Habit)
    (m : List (String × List Instant)) (pstart pend : Option Int)
    (today : Int) :
    List.Perm (find_struggling_habits habits m pstart pend today)
      (habits.map fun h =>
        (h.name, missedFor h (lookupComps m h.name)
          (resolvePeriodStart pstart (resolvePeriodEnd pend today))
          (resolvePeriodEnd pend today))) ∧
    List.Pairwise (fun a b => b.2 ≤ a.2)
      (find_struggling_habits habits m pstart pend today) ∧
    ∀ k : Int,
      (find_struggling_habits habits m pstart pend today).filter
          (fun p => p.2 == k) =
        (habits.map fun h =>
          (h.name, missedFor h (lookupComps m h.name)
            (resolvePeriodStart pstart (resolvePeriodEnd pend today))
            (resolvePeriodEnd pend today))).filter (fun p => p.2 == k) := by
  by_cases h0 : habits.length = 0
  · have : habits = [] := List.length_eq_zero.mp h0
    subst this
    refine ⟨?_, ?_, ?_⟩ <;> simp [find_struggling_habits]
  · unfold find_struggling_habits
    rw [if_neg h0]
    exact ⟨sortMissedDesc_perm _, sortMissedDesc_sorted _,
      fun k => sortMissedDesc_filter_stable _ k⟩

/-- C10: a habit whose name has no entry in the completions map is treated
as having zero completions, so its reported missed count is its full
expected count (for a well-formed window, where the expected count is
non-negative). -/
theorem c10_missing_entry_reports_full_expected (habits : List Habit)
    (m : List (String × List Instant)) (ps pe today : Int) (hb : Habit)
    (hmem : hb ∈ habits)
    (hnone : m.find? (fun p => p.1 == hb.name) = none)
    (hw : ps ≤ pe) :
    0 ≤ expectedFor hb.schedule ps pe ∧
    (hb.name, expectedFor hb.schedule ps pe) ∈
      find_struggling_habits habits m (some ps) (some pe) today := by
  have hlook : lookupComps m hb.name = [] := by
    unfold lookupComps
    rw [hnone]
  have hexp : 0 ≤ expectedFor hb.schedule ps pe := by
    unfold expectedFor daysInPeriod
    split
    · omega
    · have : (0 : Int) ≤ (pe - ps + 1).fdiv 7 :=
        Int.fdiv_nonneg (by omega) (by omega)
      omega
  have hmissed : missedFor hb (lookupComps m hb.name) ps pe =
      expectedFor hb.schedule ps pe := by
    rw [hlook]
    unfold missedFor completionsInRange
    dsimp only
    simp only [List.filter_nil, List.length_nil, Nat.cast_zero, sub_zero]
    rw [if_neg (by omega)]
  have h0 : ¬(habits.length = 0) := by
    intro h
    rw [List.length_eq_zero] at h
    subst h
    exact absurd hmem (List.not_mem_nil hb)
  refine ⟨hexp, ?_⟩
  unfold find_struggling_habits
  rw [if_neg h0]
  refine (sortMissedDesc_perm _).mem_iff.mpr ?_
  rw [List.mem_map]
  refine ⟨hb, hmem, ?_⟩
  rw [resolvePeriodEnd, resolvePeriodStart]
  simp only [Option.getD_some]
  rw [hmissed]

/-- Witness for C10 at a concrete input: the habit "B" has no entry in a map
holding only "A", over the window [0, 9]. -/
theorem c10_missing_entry_reports_full_expected_witness :
    0 ≤ expectedFor (Habit.mk "B" "" "daily").schedule 0 9 ∧
    ((Habit.mk "B" "" "daily").name,
        expectedFor (Habit.mk "B" "" "daily").schedule 0 9) ∈
      find_struggling_habits [⟨"A", "", "daily"⟩, ⟨"B", "", "daily"⟩]
        [("A", [⟨0, 0⟩])] (some 0) (some 9) 9 :=
  c10_missing_entry_reports_full_expected
    [⟨"A", "", "daily"⟩, ⟨"B", "", "daily"⟩] [("A", [⟨0, 0⟩])] 0 9 9
    ⟨"B", "", "daily"⟩ (by decide) (by decide) (by decide)

/- ### Claim C7: longest ≥ current for daily cadence -/

/-- The daily longest-streak scan started on the first element of a list
(the loop of lines 123–134 with its initial state). -/
def dailyState (l : List Int) : Int × Nat × Nat :=
  match l with
  | [] => (0, 0, 0)
  | x :: rest => dailyScan x 1 1 rest

/-- Appending one element to the scanned list performs one loop step on the
final state. -/
theorem dailyScan_append (p : Int) (c g : Nat) (l : List Int) (x : Int) :
    dailyScan p c g (l ++ [x]) =
      if x - (dailyScan p c g l).1 = 1 then
        (x, (dailyScan p c g l).2.1 + 1,
          max (dailyScan p c g l).2.2 ((dailyScan p c g l).2.1 + 1))
      else (x, 1, (dailyScan p c g l).2.2) := by
  induction l generalizing p c g with
  | nil => simp [dailyScan]
  | cons y ys ih =>
    simp only [List.cons_append, dailyScan]
    by_cases h : y - p = 1
    · simp only [if_pos h]
      exact ih y (c + 1) (max g (c + 1))
    · simp only [if_neg h]
      exact ih y 1 g

/-- Scanning the reverse of a descending list: the final previous-element is
the descending head, the final running count is exactly the current-streak
count of the descending list, and the final maximum dominates it. -/
theorem dailyState_reverse_spec (m : Int) (d : List Int) :
    (dailyState ((m :: d).reverse)).1 = m ∧
    (dailyState ((m :: d).reverse)).2.1 =
      countConsecBy (fun a b => a - b == 1) (m :: d) ∧
    countConsecBy (fun a b => a - b == 1) (m :: d) ≤
      (dailyState ((m :: d).reverse)).2.2 := by
  induction d generalizing m with
  | nil => simp [dailyState, dailyScan, countConsecBy]
  | cons y ys ih =>
    obtain ⟨a, arest, ha⟩ :=
      List.exists_cons_of_ne_nil (by simp : (y :: ys).reverse ≠ [])
    have hrev : (m :: y :: ys).reverse = a :: (arest ++ [m]) := by
      rw [List.reverse_cons, ha, List.cons_append]
    have hih := ih y
    rw [ha] at hih
    have hstate : dailyState (a :: (arest ++ [m])) =
        dailyScan a 1 1 (arest ++ [m]) := rfl
    rw [hrev, hstate, dailyScan_append]
    have h1 : (dailyScan a 1 1 arest).1 = y := hih.1
    have h2 : (dailyScan a 1 1 arest).2.1 =
        countConsecBy (fun a b => a - b == 1) (y :: ys) := hih.2.1
    have h3 := hih.2.2
    by_cases h : m - y = 1
    · rw [if_pos (by rw [h1]; exact h)]
      have hcc : countConsecBy (fun a b => a - b == 1) (m :: y :: ys) =
          countConsecBy (fun a b => a - b == 1) (y :: ys) + 1 := by
        rw [countConsecBy, if_pos (by simpa using h)]
      refine ⟨rfl, ?_, ?_⟩
      · simp only [hcc, h2]
      · rw [hcc, h2]
        exact le_max_right _ _
    · rw [if_neg (by rw [h1]; exact h)]
      have hcc : countConsecBy (fun a b => a - b == 1) (m :: y :: ys) = 1 := by
        rw [countConsecBy, if_neg (by simpa using h)]
      refine ⟨rfl, by rw [hcc], ?_⟩
      rw [hcc]
      exact le_trans (le_trans (one_le_countConsecBy _ _) h3) (le_refl _)

/-- C7: for a daily-cadence habit whose most recent distinct completion date
is today, the longest streak is greater than or equal to the current
streak. -/
theorem c7_longest_ge_current_daily (habit : Habit) (dates : List Instant)
    (today : Int) (hsched : habit.schedule = "daily")
    (hrecent : (normalizeDesc dates).head? = some today) :
    calculate_streak dates habit.schedule today ≤
      get_longest_streak_for_habit habit dates := by
  obtain ⟨rest, hd⟩ : ∃ rest, normalizeDesc dates = today :: rest := by
    cases h : normalizeDesc dates with
    | nil => rw [h] at hrecent; exact absurd hrecent (by simp)
    | cons a r =>
      rw [h] at hrecent
      simp only [List.head?_cons, Option.some_inj] at hrecent
      exact ⟨r, by rw [hrecent]⟩
  have hne : dates ≠ [] := by
    intro h0
    rw [h0] at hd
    simp [normalizeDesc, normalizeAsc, sortAsc] at hd
  have hasc : normalizeAsc dates = (today :: rest).reverse := by
    rw [← hd, normalizeDesc, List.reverse_reverse]
  have hcur : calculate_streak dates habit.schedule today =
      countConsecBy (fun a b => a - b == 1) (today :: rest) := by
    rw [hsched]
    unfold calculate_streak
    rw [if_neg hne, if_pos rfl, hd]
    show (if today < today - 1 then 0
        else countConsecBy (fun a b => a - b == 1) (today :: rest)) = _
    rw [if_neg (by omega)]
  rw [hcur]
  unfold get_longest_streak_for_habit
  rw [if_neg hne, hsched]
  by_cases hlen : (normalizeAsc dates).length = 1
  · rw [if_pos hlen]
    have : rest = [] := by
      rw [hasc] at hlen
      simp only [List.length_reverse, List.length_cons] at hlen
      exact List.length_eq_zero.mp (by omega)
    subst this
    simp [countConsecBy]
  · rw [if_neg hlen, if_pos rfl]
    obtain ⟨a, arest, ha⟩ :=
      List.exists_cons_of_ne_nil (normalizeAsc_ne_nil hne)
    rw [ha]
    show countConsecBy (fun a b => a - b == 1) (today :: rest) ≤
      (dailyScan a 1 1 arest).2.2
    have hspec := (dailyState_reverse_spec today rest).2.2
    rw [← hasc, ha] at hspec
    exact hspec

/-- Witness for C7 at a concrete input: completions on days 10 and 9 with
today = 10 (current streak 2, longest streak 2). -/
theorem c7_longest_ge_current_daily_witness :
    calculate_streak [⟨10, 0⟩, ⟨9, 4⟩] (Habit.mk "run" "" "daily").schedule
        10 ≤
      get_longest_streak_for_habit (Habit.mk "run" "" "daily")
        [⟨10, 0⟩, ⟨9, 4⟩] :=
  c7_longest_ge_current_daily (Habit.mk "run" "" "daily") [⟨10, 0⟩, ⟨9, 4⟩]
    10 rfl (by decide)

/- ### Claim C8: same-day duplicates change neither streak -/

/-- C8: appending a completion whose calendar date already occurs in the
list changes neither the current streak (either cadence) nor the longest
streak. -/
theorem c8_duplicate_date_invariant (dates : List Instant) (x : Instant)
    (habit : Habit) (today : Int)
    (hdup : x.date ∈ dates.map Instant.date) :
    calculate_streak (dates ++ [x]) habit.schedule today =
      calculate_streak dates habit.schedule today ∧
    get_longest_streak_for_habit habit (dates ++ [x]) =
      get_longest_streak_for_habit habit dates := by
  have hne : dates ≠ [] := by
    intro h0
    rw [h0] at hdup
    exact absurd hdup (by simp)
  have hne' : dates ++ [x] ≠ [] := by simp
  have hnorm : normalizeAsc (dates ++ [x]) = normalizeAsc dates := by
    apply normalizeAsc_eq_of_mem_iff
    intro a
    rw [List.map_append, List.mem_append]
    constructor
    · rintro (h | h)
      · exact h
      · simp only [List.map_cons, List.map_nil, List.mem_singleton] at h
        rw [h]
        exact hdup
    · exact fun h => Or.inl h
  have hnormD : normalizeDesc (dates ++ [x]) = normalizeDesc dates := by
    rw [normalizeDesc, normalizeDesc, hnorm]
  constructor
  · unfold calculate_streak
    rw [if_neg hne, if_neg hne', hnormD]
  · unfold get_longest_streak_for_habit
    rw [if_neg hne, if_neg hne', hnorm]

/-- Witness for C8 at a concrete input: a second completion on day 3 is
appended to completions on days 3 and 2. -/
theorem c8_duplicate_date_invariant_witness :
    calculate_streak ([⟨3, 0⟩, ⟨2, 0⟩] ++ [⟨3, 5⟩])
        (Habit.mk "r" "" "daily").schedule 3 =
      calculate_streak [⟨3, 0⟩, ⟨2, 0⟩] (Habit.mk "r" "" "daily").schedule 3 ∧
    get_longest_streak_for_habit (Habit.mk "r" "" "daily")
        ([⟨3, 0⟩, ⟨2, 0⟩] ++ [⟨3, 5⟩]) =
      get_longest_streak_for_habit (Habit.mk "r" "" "daily")
        [⟨3, 0⟩, ⟨2, 0⟩] :=
  c8_duplicate_date_invariant [⟨3, 0⟩, ⟨2, 0⟩] ⟨3, 5⟩
    (Habit.mk "r" "" "daily") 3 (by decide)

/- ### Claim C9: the aggregate reporter -/

theorem maxStreakOf_eq_foldl_max (hs : List (String × Nat × String)) :
    maxStreakOf hs = hs.foldl (fun m t => max m t.2.1) 0 := by
  unfold maxStreakOf
  congr 1
  funext m t
  split <;> omega

theorem foldl_max_init_le (l : List (String × Nat × String)) (a : Nat) :
    a ≤ l.foldl (fun m t => max m t.2.1) a := by
  induction l generalizing a with
  | nil => simp
  | cons x xs ih =>
    exact le_trans (le_max_left a x.2.1) (ih (max a x.2.1))

theorem le_foldl_max_of_mem {l : List (String × Nat × String)}
    {t : String × Nat × String} (h : t ∈ l) (a : Nat) :
    t.2.1 ≤ l.foldl (fun m t => max m t.2.1) a := by
  induction l generalizing a with
  | nil => exact absurd h (List.not_mem_nil t)
  | cons x xs ih =>
    rcases List.mem_cons.mp h with rfl | h'
    · exact le_trans (le_max_right a t.2.1) (foldl_max_init_le xs _)
    · exact ih h' _

theorem foldl_max_attained (l : List (String × Nat × String)) (a : Nat) :
    l.foldl (fun m t => max m t.2.1) a = a ∨
      ∃ t ∈ l, l.foldl (fun m t => max m t.2.1) a = t.2.1 := by
  induction l generalizing a with
  | nil => exact Or.inl rfl
  | cons x xs ih =>
    rw [List.foldl_cons]
    rcases ih (max a x.2.1) with h | ⟨t, ht, h⟩
    · rcases max_choice a x.2.1 with h' | h'
      · exact Or.inl (by rw [h, h'])
      · exact Or.inr ⟨x, List.mem_cons_self x xs, by rw [h, h']⟩
    · exact Or.inr ⟨t, List.mem_cons_of_mem x ht, h⟩

/-- C9: the aggregate reporter computes the per-habit longest streaks,
`maxStreakOf` is their maximum (attained when any habit exists), the
best-habit list contains exactly the habits achieving that maximum, and an
empty habit set produces the no-data message rather than a numeric result. -/
theorem c9_longest_across_habits (habits : List Habit)
    (comps : String → List Instant) :
    view_longest_streak_all [] comps =
        "No habits defined to calculate streaks." ∧
    (∀ hb ∈ habits,
      get_longest_streak_for_habit hb (comps hb.name) ≤
        maxStreakOf (habitStreaks habits comps)) ∧
    (habits ≠ [] → ∃ hb ∈ habits,
      get_longest_streak_for_habit hb (comps hb.name) =
        maxStreakOf (habitStreaks habits comps)) ∧
    (∀ hb ∈ habits,
      ((hb.name, get_longest_streak_for_habit hb (comps hb.name),
          hb.schedule) ∈ bestHabits habits comps ↔
        get_longest_streak_for_habit hb (comps hb.name) =
          maxStreakOf (habitStreaks habits comps))) := by
  refine ⟨rfl, ?_, ?_, ?_⟩
  · intro hb hmem
    have ht : (hb.name, get_longest_streak_for_habit hb (comps hb.name),
        hb.schedule) ∈ habitStreaks habits comps :=
      List.mem_map_of_mem _ hmem
    rw [maxStreakOf_eq_foldl_max]
    exact le_foldl_max_of_mem ht 0
  · intro hne
    rw [maxStreakOf_eq_foldl_max]
    rcases foldl_max_attained (habitStreaks habits comps) 0 with h | ⟨t, ht, h⟩
    · obtain ⟨hb, hbs, rfl⟩ := List.exists_cons_of_ne_nil hne
      refine ⟨hb, List.mem_cons_self hb hbs, ?_⟩
      have ht : (hb.name, get_longest_streak_for_habit hb (comps hb.name),
          hb.schedule) ∈ habitStreaks (hb :: hbs) comps :=
        List.mem_map_of_mem _ (List.mem_cons_self hb hbs)
      have hle := le_foldl_max_of_mem ht 0
      dsimp only at hle
      rw [h] at hle ⊢
      omega
    · rw [habitStreaks, List.mem_map] at ht
      obtain ⟨hb, hmem, rfl⟩ := ht
      exact ⟨hb, hmem, h.symm⟩
  · intro hb hmem
    constructor
    · intro hin
      rw [bestHabits, List.mem_filter] at hin
      simpa using hin.2
    · intro heq
      rw [bestHabits, List.mem_filter]
      exact ⟨List.mem_map_of_mem _ hmem, by simpa using heq⟩

/-- Witness for C9 at a concrete input: one habit with no completions; its
(zero) longest streak is the maximum, so it is a best habit, and the empty
habit set yields the no-data message. -/
theorem c9_longest_across_habits_witness :
    view_longest_streak_all [] (fun _ => ([] : List Instant)) =
        "No habits defined to calculate streaks." ∧
    ((Habit.mk "A" "" "daily").name,
        get_longest_streak_for_habit (Habit.mk "A" "" "daily")
          ((fun _ => ([] : List Instant)) (Habit.mk "A" "" "daily").name),
        (Habit.mk "A" "" "daily").schedule) ∈
      bestHabits [Habit.mk "A" "" "daily"] (fun _ => []) := by
  have h := c9_longest_across_habits [Habit.mk "A" "" "daily"] (fun _ => [])
  refine ⟨h.1, ?_⟩
  exact (h.2.2.2 (Habit.mk "A" "" "daily") (by simp)).mpr (by rfl)

end HabitApp
